import Mathlib

/-!
Verification of the RedisStore DNS storage plugin (src/src/index.ts).

The store keeps DNS records in Redis hashes: each domain name is encoded
into a storage key (labels reversed, joined with colons), each hash field
is a record type (A, AAAA, ...) and each field value is a JSON-encoded
ordered list of record values.  We embed the TypeScript class shallowly:

* Redis is modelled as a total function from keys to hashes, a hash being
  an association list from field names to deserialized value lists.  A key
  "exists" exactly when its hash is non-empty, matching Redis, which
  removes a hash key when its last field is deleted.  `hget`, `hset`,
  `hdel` and `del` mirror the ioredis client calls used by the class.
* JSON serialization is a bijection between the stored JSON strings and
  the value lists they encode, and a stored string is always non-empty
  (at least "[]"), hence truthy; so fields directly hold `List Val` and
  the JS truthiness test `if (data)` becomes presence of the field.
* Record values are a JSON-like tree `Val`; lodash `isEqual` is structural
  (deep) equality on parsed JSON, i.e. decidable equality on `Val`.
* The `while (key !== '')` loops in `get` and `resolve` are embedded with
  an explicit fuel of `key.length + 1`, which exceeds the number of
  iterations because each pass strictly shortens the key
  (`stripKey_length_lt`); `wildcardChain_fuel` shows the fuel is inert.
-/

/-- JSON-like record values as stored in the hash fields.  Lodash
`isEqual`, used by `delete`, is deep structural equality on such trees. -/
inductive Val where
  | vstr : String → Val
  | vnum : Int → Val
  | varr : List Val → Val

mutual

/-- Structural (deep) equality test on record values, the model of
lodash `isEqual`. -/
def Val.beq : Val → Val → Bool
  | .vstr a, .vstr b => a == b
  | .vnum a, .vnum b => a == b
  | .varr a, .varr b => Val.listBeq a b
  | _, _ => false

/-- Pointwise structural equality on lists of record values. -/
def Val.listBeq : List Val → List Val → Bool
  | [], [] => true
  | a :: as, b :: bs => Val.beq a b && Val.listBeq as bs
  | _, _ => false

end

mutual

theorem Val.beq_iff : ∀ (a b : Val), Val.beq a b = true ↔ a = b
  | .vstr _, .vstr _ => by simp [Val.beq]
  | .vstr _, .vnum _ => by simp [Val.beq]
  | .vstr _, .varr _ => by simp [Val.beq]
  | .vnum _, .vstr _ => by simp [Val.beq]
  | .vnum _, .vnum _ => by simp [Val.beq]
  | .vnum _, .varr _ => by simp [Val.beq]
  | .varr _, .vstr _ => by simp [Val.beq]
  | .varr _, .vnum _ => by simp [Val.beq]
  | .varr a, .varr b => by simp [Val.beq, Val.listBeq_iff a b]

theorem Val.listBeq_iff : ∀ (as bs : List Val), Val.listBeq as bs = true ↔ as = bs
  | [], [] => by simp [Val.listBeq]
  | [], _ :: _ => by simp [Val.listBeq]
  | _ :: _, [] => by simp [Val.listBeq]
  | a :: as, b :: bs => by
      simp [Val.listBeq, Val.beq_iff a b, Val.listBeq_iff as bs]

end

instance : DecidableEq Val := fun a b => decidable_of_iff _ (Val.beq_iff a b)

/-- JS truthiness of a record value: the empty string and the number 0
are falsy, arrays (like every object) are truthy. -/
def Val.truthy : Val → Bool
  | .vstr s => !(s == "")
  | .vnum n => !(n == 0)
  | .varr _ => true

/-- A Redis hash: association list from field names (record types) to the
deserialized JSON lists stored under them. -/
abbrev Hash := List (String × List Val)

/-- The Redis keyspace: every key holds a hash, the empty hash meaning the
key does not exist (Redis deletes a hash key once it has no fields). -/
abbrev RStore := String → Hash

/-- An empty Redis instance. -/
def emptyStore : RStore := fun _ => []

/-- `HGET key field`: the JSON list stored under `field`, if present. -/
def hget (h : Hash) (f : String) : Option (List Val) :=
  (h.find? (fun p => p.1 == f)).map (fun p => p.2)

/-- `HSET key field value`: replace the field value in place, or append
the field at the end when absent (Redis keeps insertion order). -/
def hset (h : Hash) (f : String) (v : List Val) : Hash :=
  match h with
  | [] => [(f, v)]
  | (g, w) :: t => if g = f then (f, v) :: t else (g, w) :: hset t f v

/-- `HDEL key field`: remove the field from the hash. -/
def hdel (h : Hash) (f : String) : Hash :=
  h.filter (fun p => !(p.1 == f))

/-- Point update of the keyspace at one key. -/
def update (st : RStore) (k : String) (h : Hash) : RStore :=
  fun k' => if k' = k then h else st k'

/-- JS `s.split(sep)` on character lists: always returns at least one
(possibly empty) part, splitting at every separator occurrence. -/
def splitCh (c : Char) : List Char → List (List Char)
  | [] => [[]]
  | x :: xs =>
    match splitCh c xs with
    | [] => [[]]
    | p :: ps => if x = c then [] :: p :: ps else (x :: p) :: ps

/-- JS `parts.join(sep)` on character lists. -/
def joinCh (c : Char) : List (List Char) → List Char
  | [] => []
  | [p] => p
  | p :: ps => p ++ c :: joinCh c ps

/-- JS `String.prototype.split` with a one-character separator. -/
def jsSplit (c : Char) (s : String) : List String :=
  (splitCh c s.data).map (fun l => ⟨l⟩)

/-- JS `Array.prototype.join` with a one-character separator. -/
def jsJoin (c : Char) (l : List String) : String :=
  ⟨joinCh c (l.map String.data)⟩

/-- `nameToKey(name)`: `name.split('.').toReversed().join(':')`. -/
def RedisStore.nameToKey (name : String) : String :=
  jsJoin ':' ((jsSplit '.' name).reverse)

/-- The inverse transform applied inline by `resolve` when reporting a
wildcard match: `key.split(':').toReversed().join('.')`. -/
def keyToName (key : String) : String :=
  jsJoin '.' ((jsSplit ':' key).reverse)

/-- One pass of the wildcard loops:
`key.split(':').toSpliced(-1, 1).join(':')`, i.e. drop the last
colon-separated segment and rejoin. -/
def stripKey (key : String) : String :=
  jsJoin ':' ((jsSplit ':' key).dropLast)

/-- Result shape of `get`.  Every branch of the source returns a
type-keyed object (`map`) except the root-wildcard branch for a typed
query, which returns `JSON.parse(data)` unwrapped (`bare`). -/
inductive GetResult where
  | map : Hash → GetResult
  | bare : List Val → GetResult
deriving DecidableEq

/-- The repeated lookup block of `get` at one key: for a typed query
`hget` the field and wrap it as `{ [rType]: JSON.parse(data) }`; for a
typeless query `hgetall` and keep every parsed field if any exists. -/
def lookupKey (st : RStore) (k : String) (rType : Option String) : Option GetResult :=
  match rType with
  | some t =>
    match hget (st k) t with
    | some vs => some (.map [(t, vs)])
    | none => none
  | none =>
    if (st k).isEmpty then none else some (.map (st k))

/-- The `while (key !== '')` loop of `get`: strip the last segment,
probe `key + ':*'`, return on a hit, iterate otherwise.  `fuel` bounds
the iteration count; `key.length + 1` always suffices. -/
def getLoop (st : RStore) (rType : Option String) : Nat → String → Option GetResult
  | 0, _ => none
  | fuel + 1, key =>
    if key = "" then none
    else
      let wildcardKey := stripKey key ++ ":*"
      match lookupKey st wildcardKey rType with
      | some r => some r
      | none => getLoop st rType fuel (stripKey key)

/-- The final root-wildcard check of `get` at the literal key `*`.  For a
typed query the source returns `JSON.parse(data)` without wrapping it in
a type-keyed object, unlike every other branch. -/
def rootLookup (st : RStore) (rType : Option String) : Option GetResult :=
  match rType with
  | some t =>
    match hget (st "*") t with
    | some vs => some (.bare vs)
    | none => none
  | none =>
    if (st "*").isEmpty then none else some (.map (st "*"))

/-- `get(name, rType?, wildcards = true)`: exact key first, then (when
wildcards are enabled) the hierarchical wildcard loop, then the root
wildcard key `*`. -/
def RedisStore.get (st : RStore) (name : String) (rType : Option String)
    (wildcards : Bool) : Option GetResult :=
  let key := RedisStore.nameToKey name
  match lookupKey st key rType with
  | some r => some r
  | none =>
    if !wildcards then none
    else
      match getLoop st rType (key.length + 1) key with
      | some r => some r
      | none => rootLookup st rType

/-- The `while (key !== '')` loop of `resolve`: probe each wildcard key
with `hgetall`; on a hit return the wildcard's domain name
(`wildcardKey.split(':').toReversed().join('.')`). -/
def resolveLoop (st : RStore) : Nat → String → Option String
  | 0, _ => none
  | fuel + 1, key =>
    if key = "" then none
    else
      let wildcardKey := stripKey key ++ ":*"
      if (st wildcardKey).isEmpty then resolveLoop st fuel (stripKey key)
      else some (keyToName wildcardKey)

/-- `resolve(name)`: return the exact storage key when it holds data,
otherwise walk the hierarchical wildcard keys.  Unlike `get`, the source
never probes the root wildcard key `*`. -/
def RedisStore.resolve (st : RStore) (name : String) : Option String :=
  let key := RedisStore.nameToKey name
  if (st key).isEmpty then resolveLoop st (key.length + 1) key
  else some key

/-- The `Array.isArray` wrap of `set`: a non-array value becomes a
singleton list (`if (!Array.isArray(data)) data = [data]`). -/
def wrapData : Val ⊕ List Val → List Val
  | Sum.inl v => [v]
  | Sum.inr vs => vs

/-- `set(name, rType, data)`: `hset` the field to the JSON encoding of
the (wrapped) list. -/
def RedisStore.set (st : RStore) (name rType : String) (data : Val ⊕ List Val) : RStore :=
  let key := RedisStore.nameToKey name
  update st key (hset (st key) rType (wrapData data))

/-- `append(name, rType, data)`: read the current list (if the field
exists), push `data` at the end, write back; create a singleton list
when the field is absent. -/
def RedisStore.append (st : RStore) (name rType : String) (data : Val) : RStore :=
  let key := RedisStore.nameToKey name
  match hget (st key) rType with
  | some parsedData => update st key (hset (st key) rType (parsedData ++ [data]))
  | none => update st key (hset (st key) rType [data])

/-- `delete(name, rType?, rData?)`: the guard `if (rType && rData)`
tests JS truthiness, so the filter branch runs only for a truthy value —
a provided falsy value (the empty string, 0) falls through to the
`if (rType)` branch and `hdel`s the whole field.  With a truthy value,
filter the stored list by lodash `isEqual` and either rewrite it or
`hdel` the field when the filtered list is empty (an absent field also
falls through to the `hdel`); with a type only, `hdel` the field; with
no type, `del` the whole key.  Record types come from the
`SupportedRecordType` enum of non-empty string literals, so for `rType`
truthiness coincides with presence. -/
def RedisStore.delete (st : RStore) (name : String) (rType : Option String)
    (rData : Option Val) : RStore :=
  let key := RedisStore.nameToKey name
  match rType, rData with
  | some t, some v =>
    if Val.truthy v then
      (match hget (st key) t with
       | some parsedData =>
         let newData := parsedData.filter (fun d => !(Val.beq d v))
         if newData.isEmpty then update st key (hdel (st key) t)
         else update st key (hset (st key) t newData)
       | none => update st key (hdel (st key) t))
    else update st key (hdel (st key) t)
  | some t, none => update st key (hdel (st key) t)
  | none, _ => update st key []

/-- One DNS answer entry as built by the handler:
`{ name, type, ttl: 300, data }` with the originally queried name. -/
structure Answer where
  name : String
  rtype : String
  ttl : Nat
  data : Val
deriving DecidableEq

/-- Payload of the `cacheRequest` event emitted by `emitCacheRequest`. -/
structure CacheEvent where
  zoneName : String
  recordType : String
  records : List Val
deriving DecidableEq

/-- JS `value.map(...)` precondition: only arrays have `.map`; calling it
on any other value throws a `TypeError`. -/
def jsArray : Val → Option (List Val)
  | .varr l => some l
  | _ => none

/-- The answer-building block of the handler:
`Object.entries(result).map(([key, value]) => value.map(...)).flat()`.
On a type-keyed object this yields one answer per stored value; on a
bare array (the root-wildcard shape) `Object.entries` enumerates the
indices and `value.map` throws unless every element is itself an array,
which `none` models. -/
def buildAnswers (qname : String) : GetResult → Option (List Answer)
  | .map h =>
    some ((h.map (fun p => p.2.map (fun d => Answer.mk qname p.1 300 d))).flatten)
  | .bare vs =>
    ((vs.enum.mapM (fun p =>
        (jsArray p.2).map (fun l =>
          l.map (fun d => Answer.mk qname (toString p.1) 300 d)))).map List.flatten)

/-- The constructor's treatment of the `shouldCache` option: the field
starts `true` and is only reassigned when the option is truthy
(`if (options.shouldCache) this.shouldCache = options.shouldCache`). -/
def initShouldCache : Option Bool → Bool
  | some b => if b then b else true
  | none => true

/-- The request handler: a no-op when the response is already finished;
otherwise run a wildcard-enabled typed `get`, answer with one entry per
(type, value) pair, and, when `shouldCache` is set, emit exactly one
`cacheRequest` event carrying the queried name, the queried type and the
flat list of answered values.  `none` models the `TypeError` thrown when
a bare root-wildcard result is fed to the answer builder. -/
def RedisStore.handler (shouldCache : Bool) (st : RStore) (qname qtype : String)
    (finished : Bool) : Option (List Answer × List CacheEvent) :=
  if finished then some ([], [])
  else
    match RedisStore.get st qname (some qtype) true with
    | none => some ([], [])
    | some result =>
      match buildAnswers qname result with
      | none => none
      | some answers =>
        some (answers,
          if shouldCache then [CacheEvent.mk qname qtype (answers.map (fun a => a.data))]
          else [])

/-- Specification-side description of the wildcard walk: the successive
wildcard keys probed by the loops, obtained by repeatedly stripping the
right-most segment and appending `:*`, until the key is exhausted. -/
def wildcardChain : Nat → String → List String
  | 0, _ => []
  | fuel + 1, key =>
    if key = "" then [] else (stripKey key ++ ":*") :: wildcardChain fuel (stripKey key)

/-- Specification-side description of the full probe order of `get`:
the exact key, then the hierarchical wildcard keys, then the root
wildcard key `*`; only the exact key when wildcards are disabled. -/
def keyChain (name : String) (wildcards : Bool) : List String :=
  let key := RedisStore.nameToKey name
  match wildcards with
  | true => key :: (wildcardChain (key.length + 1) key ++ ["*"])
  | false => [key]

/-- A storage key holds data matching a query: for a typed query the
field is present; for a typeless query the key has at least one field. -/
def holdsData (st : RStore) (k : String) (rType : Option String) : Bool :=
  match rType with
  | some t => (hget (st k) t).isSome
  | none => !(st k).isEmpty

/-- The value `get` hands back for a match at key `k`: a type-keyed
object everywhere, except the bare list at the root wildcard `*` reached
by fallback (not as the exact key of the query `*`). -/
def resultAt (st : RStore) (name k : String) (rType : Option String) : GetResult :=
  match rType with
  | some t =>
    if k = "*" ∧ RedisStore.nameToKey name ≠ "*" then .bare ((hget (st k) t).getD [])
    else .map [(t, (hget (st k) t).getD [])]
  | none => .map (st k)

/-- The uniform type-keyed wrap used by the exact and hierarchical
branches of `get`. -/
def mapWrap (st : RStore) (k : String) (rType : Option String) : GetResult :=
  match rType with
  | some t => .map [(t, (hget (st k) t).getD [])]
  | none => .map (st k)

/-- Specification-side probe order of `resolve`: the exact key followed
by the hierarchical wildcard keys.  Unlike `keyChain _ true`, the root
wildcard key `*` is absent, because the source's `resolve` never probes
it. -/
def resolveChain (name : String) : List String :=
  RedisStore.nameToKey name ::
    wildcardChain ((RedisStore.nameToKey name).length + 1) (RedisStore.nameToKey name)

/-- A sample A record value. -/
def vA : Val := Val.vstr "127.0.0.1"

/-- A second sample A record value. -/
def vB : Val := Val.vstr "127.0.0.2"

/-- A store whose only key is the root wildcard `*`. -/
def starStore : RStore := fun k => if k = "*" then [("A", [vA])] else []

/-- A store holding one A record at the exact key of `example.com`. -/
def exactStore : RStore := fun k => if k = "com:example" then [("A", [vA])] else []

/-- One mutating call against the store: the three writer methods with
their arguments. -/
inductive Op where
  | oset : String → String → (Val ⊕ List Val) → Op
  | oappend : String → String → Val → Op
  | odelete : String → Option String → Option Val → Op

/-- Run one writer call. -/
def runOp (st : RStore) : Op → RStore
  | .oset n t d => RedisStore.set st n t d
  | .oappend n t v => RedisStore.append st n t v
  | .odelete n t v => RedisStore.delete st n t v

/-- Run a sequence of writer calls from left to right. -/
def runOps (st : RStore) (ops : List Op) : RStore := ops.foldl runOp st

/-- A call is non-degenerate when any explicit value list handed to
`set` is non-empty. -/
def okOp : Op → Bool
  | .oset _ _ (Sum.inr vs) => !vs.isEmpty
  | _ => true

/-- The store invariant of the specification: every record-type field
present under any storage key holds a non-empty value list.  (A key with
an empty collection cannot exist at all in Redis: a hash key vanishes
with its last field.) -/
def storeInv (st : RStore) : Prop := ∀ k p, p ∈ st k → p.2 ≠ []

/-- A store whose key `a` holds the degenerate empty list under `A`,
reachable from the empty store by `set("a", "A", [])`. -/
def emptyFieldStore : RStore := fun k => if k = "a" then [("A", ([] : List Val))] else []

example : RedisStore.nameToKey "example.com" = "com:example" := by decide

example : RedisStore.nameToKey "*.example.com" = "com:example:*" := by decide

example : RedisStore.nameToKey "com" = "com" := by decide

example : RedisStore.nameToKey "*" = "*" := by decide

example : stripKey "com:example:test" = "com:example" := by decide

example : stripKey "com" = "" := by decide

example : keyToName "com:example:*" = "*.example.com" := by decide

example :
    RedisStore.get (fun k => if k = "com:example" then [("A", [Val.vstr "x"])] else [])
      "example.com" (some "A") true = some (.map [("A", [Val.vstr "x"])]) := by decide

example :
    RedisStore.get (fun k => if k = "com:*" then [("A", [Val.vstr "x"])] else [])
      "test.com" (some "A") true = some (.map [("A", [Val.vstr "x"])]) := by decide

example :
    RedisStore.get (fun k => if k = "*" then [("A", [Val.vstr "x"])] else [])
      "test.com" (some "A") true = some (.bare [Val.vstr "x"]) := by decide

example :
    RedisStore.get (fun k => if k = "com:*" then [("A", [Val.vstr "x"])] else [])
      "test.com" (some "A") false = none := by decide

example :
    RedisStore.resolve (fun k => if k = "com:example:*" then [("A", [Val.vstr "x"])] else [])
      "test.example.com" = some "*.example.com" := by decide

example :
    RedisStore.resolve (fun k => if k = "*" then [("A", [Val.vstr "x"])] else [])
      "test.example.com" = none := by decide

theorem update_self (st : RStore) (k : String) (h : Hash) : update st k h k = h := by
  simp [update]

theorem update_ne (st : RStore) (k : String) (h : Hash) {k' : String} (hk : k' ≠ k) :
    update st k h k' = st k' := by
  simp [update, hk]

theorem hget_nil (f : String) : hget [] f = none := rfl

theorem hget_cons (g : String) (w : List Val) (t : Hash) (f : String) :
    hget ((g, w) :: t) f = if g = f then some w else hget t f := by
  by_cases hg : g = f
  · subst hg
    simp [hget, List.find?]
  · have hb : (g == f) = false := beq_eq_false_iff_ne.mpr hg
    simp [hget, List.find?, hb, hg]

theorem hdel_cons (g : String) (w : List Val) (t : Hash) (f : String) :
    hdel ((g, w) :: t) f = if g = f then hdel t f else (g, w) :: hdel t f := by
  by_cases hg : g = f
  · subst hg
    simp [hdel, List.filter]
  · have hb : (g == f) = false := beq_eq_false_iff_ne.mpr hg
    simp [hdel, List.filter, hb, hg]

theorem hget_hset_self (h : Hash) (f : String) (v : List Val) :
    hget (hset h f v) f = some v := by
  induction h with
  | nil =>
    show hget [(f, v)] f = some v
    rw [hget_cons, if_pos rfl]
  | cons p t ih =>
    obtain ⟨g, w⟩ := p
    simp only [hset]
    by_cases hg : g = f
    · rw [if_pos hg, hget_cons, if_pos rfl]
    · rw [if_neg hg, hget_cons, if_neg hg]
      exact ih

theorem hget_hset_ne (h : Hash) (f : String) (v : List Val) {f' : String} (hne : f' ≠ f) :
    hget (hset h f v) f' = hget h f' := by
  induction h with
  | nil =>
    show hget [(f, v)] f' = hget [] f'
    rw [hget_cons, if_neg (fun hx : f = f' => hne hx.symm)]
  | cons p t ih =>
    obtain ⟨g, w⟩ := p
    by_cases hg : g = f
    · subst hg
      have hs : hset ((g, w) :: t) g v = (g, v) :: t := by simp [hset]
      rw [hs, hget_cons, hget_cons, if_neg (fun hx : g = f' => hne hx.symm),
        if_neg (fun hx : g = f' => hne hx.symm)]
    · simp only [hset]
      rw [if_neg hg, hget_cons, hget_cons]
      by_cases hgf : g = f'
      · rw [if_pos hgf, if_pos hgf]
      · rw [if_neg hgf, if_neg hgf]
        exact ih

theorem hget_hdel_self (h : Hash) (f : String) : hget (hdel h f) f = none := by
  induction h with
  | nil => rfl
  | cons p t ih =>
    obtain ⟨g, w⟩ := p
    rw [hdel_cons]
    by_cases hg : g = f
    · rw [if_pos hg]
      exact ih
    · rw [if_neg hg, hget_cons, if_neg hg]
      exact ih

theorem hget_hdel_ne (h : Hash) (f : String) {f' : String} (hne : f' ≠ f) :
    hget (hdel h f) f' = hget h f' := by
  induction h with
  | nil => rfl
  | cons p t ih =>
    obtain ⟨g, w⟩ := p
    rw [hdel_cons]
    by_cases hg : g = f
    · subst hg
      rw [if_pos rfl, ih, hget_cons, if_neg (fun hx : g = f' => hne hx.symm)]
    · rw [if_neg hg, hget_cons, hget_cons]
      by_cases hgf : g = f'
      · rw [if_pos hgf, if_pos hgf]
      · rw [if_neg hgf, if_neg hgf]
        exact ih

theorem hdel_of_hget_none (h : Hash) (f : String) (hn : hget h f = none) :
    hdel h f = h := by
  induction h with
  | nil => rfl
  | cons p t ih =>
    obtain ⟨g, w⟩ := p
    rw [hget_cons] at hn
    by_cases hg : g = f
    · rw [if_pos hg] at hn
      exact absurd hn (Option.some_ne_none _)
    · rw [if_neg hg] at hn
      rw [hdel_cons, if_neg hg, ih hn]

theorem hset_of_hget_some (h : Hash) (f : String) (v : List Val)
    (hs : hget h f = some v) : hset h f v = h := by
  induction h with
  | nil => simp [hget_nil] at hs
  | cons p t ih =>
    obtain ⟨g, w⟩ := p
    rw [hget_cons] at hs
    by_cases hg : g = f
    · simp only [if_pos hg, Option.some.injEq] at hs
      simp [hset, hg, hs]
    · simp only [if_neg hg] at hs
      simp [hset, hg, ih hs]

theorem hset_hset_same (h : Hash) (f : String) (v w : List Val) :
    hset (hset h f v) f w = hset h f w := by
  induction h with
  | nil => simp [hset]
  | cons p t ih =>
    obtain ⟨g, u⟩ := p
    by_cases hg : g = f
    · simp [hset, hg]
    · simp [hset, hg, ih]

theorem mem_hset (h : Hash) (f : String) (v : List Val) {p : String × List Val}
    (hp : p ∈ hset h f v) : p = (f, v) ∨ p ∈ h := by
  induction h with
  | nil => simpa [hset] using hp
  | cons q t ih =>
    obtain ⟨g, w⟩ := q
    by_cases hg : g = f
    · rcases (by simpa [hset, hg] using hp : p = (f, v) ∨ p ∈ t) with h1 | h1
      · exact Or.inl h1
      · exact Or.inr (List.mem_cons_of_mem _ h1)
    · rcases (by simpa [hset, hg] using hp : p = (g, w) ∨ p ∈ hset t f v) with h1 | h1
      · exact Or.inr (by simp [h1])
      · rcases ih h1 with h2 | h2
        · exact Or.inl h2
        · exact Or.inr (List.mem_cons_of_mem _ h2)

theorem mem_hdel (h : Hash) (f : String) {p : String × List Val}
    (hp : p ∈ hdel h f) : p ∈ h :=
  List.mem_of_mem_filter hp

theorem splitCh_ne_nil (c : Char) (l : List Char) : splitCh c l ≠ [] := by
  cases l with
  | nil => simp [splitCh]
  | cons x xs =>
    simp only [splitCh]
    cases h : splitCh c xs with
    | nil => simp
    | cons p ps =>
      by_cases hx : x = c
      · simp [hx]
      · simp [hx]

theorem splitCh_cons_eq (c x : Char) (xs : List Char) (p : List Char)
    (ps : List (List Char)) (h : splitCh c xs = p :: ps) :
    splitCh c (x :: xs) = if x = c then [] :: p :: ps else (x :: p) :: ps := by
  simp only [splitCh, h]

theorem joinCh_splitCh (c : Char) (l : List Char) : joinCh c (splitCh c l) = l := by
  induction l with
  | nil => rfl
  | cons x xs ih =>
    cases h : splitCh c xs with
    | nil => exact absurd h (splitCh_ne_nil c xs)
    | cons p ps =>
      rw [h] at ih
      rw [splitCh_cons_eq c x xs p ps h]
      by_cases hx : x = c
      · subst hx
        rw [if_pos rfl]
        show ([] : List Char) ++ x :: joinCh x (p :: ps) = x :: xs
        rw [List.nil_append, ih]
      · rw [if_neg hx]
        cases ps with
        | nil =>
          show x :: p = x :: xs
          rw [show joinCh c [p] = p from rfl] at ih
          rw [ih]
        | cons q qs =>
          show (x :: p) ++ c :: joinCh c (q :: qs) = x :: xs
          rw [show joinCh c (p :: q :: qs) = p ++ c :: joinCh c (q :: qs) from rfl] at ih
          rw [List.cons_append, ih]

theorem splitCh_of_not_mem (c : Char) (l : List Char) (h : c ∉ l) :
    splitCh c l = [l] := by
  induction l with
  | nil => rfl
  | cons x xs ih =>
    have hx : ¬x = c := fun he => h (by simp [he])
    have hxs : c ∉ xs := fun hm => h (List.mem_cons_of_mem _ hm)
    rw [splitCh_cons_eq c x xs xs [] (ih hxs), if_neg hx]

theorem not_mem_of_mem_splitCh (c : Char) (l : List Char) (hc : c ∉ l) :
    ∀ p ∈ splitCh c l, c ∉ p := by
  intro p hp
  induction l generalizing p with
  | nil =>
    simp only [splitCh, List.mem_singleton] at hp
    subst hp
    exact List.not_mem_nil c
  | cons x xs ih =>
    have hx : ¬x = c := fun he => hc (by simp [he])
    have hxs : c ∉ xs := fun hm => hc (List.mem_cons_of_mem _ hm)
    cases h : splitCh c xs with
    | nil => exact absurd h (splitCh_ne_nil c xs)
    | cons q qs =>
      rw [splitCh_cons_eq c x xs q qs h, if_neg hx] at hp
      rcases List.mem_cons.mp hp with h1 | h1
      · subst h1
        intro hm
        rcases List.mem_cons.mp hm with h2 | h2
        · exact hx h2.symm
        · exact ih hxs q (by rw [h]; exact List.mem_cons_self q qs) h2
      · exact ih hxs p (by rw [h]; exact List.mem_cons_of_mem _ h1)

theorem splitCh_append_cons (c : Char) (p t : List Char) (hp : c ∉ p) :
    splitCh c (p ++ c :: t) = p :: splitCh c t := by
  induction p with
  | nil =>
    cases h : splitCh c t with
    | nil => exact absurd h (splitCh_ne_nil c t)
    | cons q qs =>
      rw [List.nil_append, splitCh_cons_eq c c t q qs h, if_pos rfl]
  | cons y p' ih =>
    have hy : ¬y = c := fun he => hp (by simp [he])
    have hp' : c ∉ p' := fun hm => hp (List.mem_cons_of_mem _ hm)
    rw [List.cons_append,
      splitCh_cons_eq c y (p' ++ c :: t) p' (splitCh c t) (ih hp'), if_neg hy]

theorem splitCh_joinCh (c : Char) (parts : List (List Char)) (hne : parts ≠ [])
    (hfree : ∀ p ∈ parts, c ∉ p) : splitCh c (joinCh c parts) = parts := by
  induction parts with
  | nil => exact absurd rfl hne
  | cons p rest ih =>
    cases rest with
    | nil =>
      simp only [joinCh]
      exact splitCh_of_not_mem c p (hfree p (List.mem_cons_self p []))
    | cons q qs =>
      simp only [joinCh]
      rw [splitCh_append_cons c p _ (hfree p (List.mem_cons_self p _))]
      rw [ih (List.cons_ne_nil q qs) (fun r hr => hfree r (List.mem_cons_of_mem _ hr))]

theorem joinCh_length (c : Char) (ps : List (List Char)) :
    (joinCh c ps).length = (ps.map List.length).sum + ps.length - 1 := by
  induction ps with
  | nil => rfl
  | cons p rest ih =>
    cases rest with
    | nil => simp [joinCh]
    | cons q qs =>
      simp only [joinCh, List.length_append, List.length_cons, List.map_cons,
        List.sum_cons] at ih ⊢
      omega

theorem dropLast_map {α β : Type} (f : α → β) (l : List α) :
    (l.map f).dropLast = l.dropLast.map f := by
  induction l with
  | nil => rfl
  | cons x xs ih =>
    cases xs with
    | nil => rfl
    | cons y ys => simp [List.dropLast_cons₂, ih]

theorem data_mk (l : List Char) : (String.mk l).data = l := rfl

theorem mk_data (s : String) : String.mk s.data = s := rfl

theorem string_length_data (s : String) : s.length = s.data.length := rfl

theorem string_ne_empty_iff (s : String) : s ≠ "" ↔ s.data ≠ [] := by
  constructor
  · intro h hd
    exact h (String.ext hd)
  · intro h he
    subst he
    exact h rfl

theorem stripKey_data (k : String) :
    (stripKey k).data = joinCh ':' ((splitCh ':' k.data).dropLast) := by
  simp only [stripKey, jsJoin, jsSplit, data_mk, dropLast_map, List.map_map]
  have hid : (String.data ∘ fun l => (⟨l⟩ : String)) = id := funext (fun _ => rfl)
  rw [hid, List.map_id]

theorem stripKey_length_lt (k : String) (h : k ≠ "") :
    (stripKey k).length < k.length := by
  have hd : k.data ≠ [] := (string_ne_empty_iff k).mp h
  rw [string_length_data, string_length_data, stripKey_data]
  have hP := splitCh_ne_nil ':' k.data
  have hPd := List.dropLast_append_getLast hP
  have hjoin := joinCh_splitCh ':' k.data
  have h1 := joinCh_length ':' (splitCh ':' k.data)
  have h2 := joinCh_length ':' ((splitCh ':' k.data).dropLast)
  have hlen : 0 < k.data.length := List.length_pos.mpr hd
  rw [hjoin] at h1
  rw [← hPd, List.map_append, List.sum_append, List.length_append] at h1
  simp only [List.map_cons, List.map_nil, List.sum_cons, List.sum_nil,
    List.length_cons, List.length_nil] at h1
  omega

theorem splitCh_sep_free (c : Char) (l : List Char) : ∀ p ∈ splitCh c l, c ∉ p := by
  intro p hp
  induction l generalizing p with
  | nil =>
    simp only [splitCh, List.mem_singleton] at hp
    subst hp
    exact List.not_mem_nil c
  | cons x xs ih =>
    cases h : splitCh c xs with
    | nil => exact absurd h (splitCh_ne_nil c xs)
    | cons q qs =>
      rw [splitCh_cons_eq c x xs q qs h] at hp
      by_cases hx : x = c
      · rw [if_pos hx] at hp
        rcases List.mem_cons.mp hp with h1 | h1
        · subst h1
          exact List.not_mem_nil c
        · exact ih p (by rw [h]; exact h1)
      · rw [if_neg hx] at hp
        rcases List.mem_cons.mp hp with h1 | h1
        · subst h1
          intro hm
          rcases List.mem_cons.mp hm with h2 | h2
          · exact hx h2.symm
          · exact ih q (by rw [h]; exact List.mem_cons_self q qs) h2
        · exact ih p (by rw [h]; exact List.mem_cons_of_mem _ h1)

theorem mem_of_mem_splitCh (c : Char) (l : List Char) :
    ∀ p ∈ splitCh c l, ∀ a ∈ p, a ∈ l := by
  intro p hp a ha
  induction l generalizing p with
  | nil =>
    simp only [splitCh, List.mem_singleton] at hp
    subst hp
    exact absurd ha (List.not_mem_nil a)
  | cons x xs ih =>
    cases h : splitCh c xs with
    | nil => exact absurd h (splitCh_ne_nil c xs)
    | cons q qs =>
      rw [splitCh_cons_eq c x xs q qs h] at hp
      by_cases hx : x = c
      · rw [if_pos hx] at hp
        rcases List.mem_cons.mp hp with h1 | h1
        · subst h1
          exact absurd ha (List.not_mem_nil a)
        · exact List.mem_cons_of_mem _ (ih p (by rw [h]; exact h1) ha)
      · rw [if_neg hx] at hp
        rcases List.mem_cons.mp hp with h1 | h1
        · subst h1
          rcases List.mem_cons.mp ha with h2 | h2
          · exact h2 ▸ List.mem_cons_self x xs
          · exact List.mem_cons_of_mem _
              (ih q (by rw [h]; exact List.mem_cons_self q qs) h2)
        · exact List.mem_cons_of_mem _ (ih p (by rw [h]; exact List.mem_cons_of_mem _ h1) ha)

theorem jsSplit_map_data (c : Char) (s : String) :
    (jsSplit c s).map String.data = splitCh c s.data := by
  simp only [jsSplit, List.map_map]
  have hid : (String.data ∘ fun l => (⟨l⟩ : String)) = id := funext (fun _ => rfl)
  rw [hid, List.map_id]

theorem nameToKey_data (n : String) :
    (RedisStore.nameToKey n).data = joinCh ':' ((splitCh '.' n.data).reverse) := by
  show joinCh ':' (((jsSplit '.' n).reverse).map String.data) = _
  rw [List.map_reverse, jsSplit_map_data]

theorem keyToName_data (k : String) :
    (keyToName k).data = joinCh '.' ((splitCh ':' k.data).reverse) := by
  show joinCh '.' (((jsSplit ':' k).reverse).map String.data) = _
  rw [List.map_reverse, jsSplit_map_data]

theorem wildcardChain_fuel : ∀ (f g : Nat) (k : String),
    k.length < f → k.length < g → wildcardChain f k = wildcardChain g k := by
  intro f
  induction f with
  | zero =>
    intro g k hf
    exact absurd hf (Nat.not_lt_zero _)
  | succ f ih =>
    intro g k hf hg
    cases g with
    | zero => exact absurd hg (Nat.not_lt_zero _)
    | succ g =>
      simp only [wildcardChain]
      by_cases hk : k = ""
      · rw [if_pos hk, if_pos hk]
      · rw [if_neg hk, if_neg hk]
        have hs := stripKey_length_lt k hk
        rw [ih g (stripKey k) (by omega) (by omega)]

theorem lookupKey_eq (st : RStore) (k : String) (rType : Option String) :
    lookupKey st k rType = cond (holdsData st k rType) (some (mapWrap st k rType)) none := by
  cases rType with
  | none =>
    simp only [lookupKey, holdsData, mapWrap]
    cases he : (st k).isEmpty
    · simp [he]
    · simp [he]
  | some t =>
    simp only [lookupKey, holdsData, mapWrap]
    cases hv : hget (st k) t
    · simp
    · simp

theorem find?_orElse {α : Type} (p : α → Bool) (l₁ l₂ : List α) :
    List.find? p (l₁ ++ l₂) = (List.find? p l₁).orElse (fun _ => List.find? p l₂) := by
  induction l₁ with
  | nil => rfl
  | cons a l ih =>
    cases hp : p a
    · rw [List.cons_append, List.find?_cons_of_neg _ (by simp [hp]),
        List.find?_cons_of_neg _ (by simp [hp]), ih]
    · rw [List.cons_append, List.find?_cons_of_pos _ hp, List.find?_cons_of_pos _ hp]
      rfl

theorem getLoop_eq_chain (st : RStore) (rType : Option String) : ∀ (f : Nat) (k : String),
    getLoop st rType f k =
      ((wildcardChain f k).find? (fun x => holdsData st x rType)).map
        (fun x => mapWrap st x rType) := by
  intro f
  induction f with
  | zero => intro k; rfl
  | succ f ih =>
    intro k
    simp only [getLoop, wildcardChain]
    by_cases hk : k = ""
    · rw [if_pos hk, if_pos hk]
      rfl
    · rw [if_neg hk, if_neg hk, lookupKey_eq]
      cases hh : holdsData st (stripKey k ++ ":*") rType
      · rw [List.find?_cons_of_neg _ (by simp [hh])]
        exact ih (stripKey k)
      · rw [List.find?_cons_of_pos (wildcardChain f (stripKey k))
            (show (fun x => holdsData st x rType) (stripKey k ++ ":*") = true from hh)]
        rfl

theorem wildcardChain_mem : ∀ (f : Nat) (k : String), ∀ k' ∈ wildcardChain f k,
    ∃ s, k' = s ++ ":*" := by
  intro f
  induction f with
  | zero =>
    intro k k' h
    exact absurd h (List.not_mem_nil k')
  | succ f ih =>
    intro k k' h
    by_cases hk : k = ""
    · rw [wildcardChain, if_pos hk] at h
      exact absurd h (List.not_mem_nil k')
    · rw [wildcardChain, if_neg hk] at h
      rcases List.mem_cons.mp h with h1 | h1
      · exact ⟨stripKey k, h1⟩
      · exact ih (stripKey k) k' h1

theorem append_star_ne_star (s : String) : s ++ ":*" ≠ "*" := by
  intro h
  have hlen : (s ++ ":*").length = ("*" : String).length := by rw [h]
  rw [String.length_append] at hlen
  have h2 : (":*" : String).length = 2 := rfl
  have h1 : ("*" : String).length = 1 := rfl
  omega

theorem find?_cons_pos {α : Type} (p : α → Bool) (a : α) (l : List α) (h : p a = true) :
    List.find? p (a :: l) = some a :=
  List.find?_cons_of_pos l h

theorem find?_cons_neg {α : Type} (p : α → Bool) (a : α) (l : List α) (h : p a = false) :
    List.find? p (a :: l) = List.find? p l :=
  List.find?_cons_of_neg l (by simp [h])

theorem resultAt_self (st : RStore) (name : String) (rType : Option String) :
    resultAt st name (RedisStore.nameToKey name) rType =
      mapWrap st (RedisStore.nameToKey name) rType := by
  cases rType with
  | none => rfl
  | some t =>
    simp only [resultAt, mapWrap]
    rw [if_neg (fun hc => hc.2 hc.1)]

theorem resultAt_eq_mapWrap_of_ne (st : RStore) (name k : String) (rType : Option String)
    (hk : k ≠ "*") : resultAt st name k rType = mapWrap st k rType := by
  cases rType with
  | none => rfl
  | some t =>
    simp only [resultAt, mapWrap]
    rw [if_neg (fun hc => hk hc.1)]

theorem rootLookup_none (st : RStore) (rType : Option String)
    (h : holdsData st "*" rType = false) : rootLookup st rType = none := by
  cases rType with
  | some t =>
    have hv : hget (st "*") t = none := by
      cases hv : hget (st "*") t
      · rfl
      · rw [holdsData, hv] at h
        simp at h
    simp [rootLookup, hv]
  | none =>
    have hie : (st "*").isEmpty = true := by simpa [holdsData] using h
    simp [rootLookup, hie]

/-- C1: with wildcards enabled, `get` returns the records of the first
key, in the strict order exact key, then successively less specific
hierarchical wildcard keys obtained by stripping the right-most segment
of the colon-joined key and appending `:*` until the key is exhausted,
then the root wildcard `*`, that holds matching data; `none` when no key
matches.  With the flag false only the exact key is consulted. -/
theorem get_first_matching_key (st : RStore) (name : String) (rType : Option String)
    (w : Bool) :
    RedisStore.get st name rType w =
      ((keyChain name w).find? (fun k => holdsData st k rType)).map
        (fun k => resultAt st name k rType) := by
  simp only [RedisStore.get, keyChain]
  rw [lookupKey_eq]
  cases w with
  | false =>
    cases hh : holdsData st (RedisStore.nameToKey name) rType
    · rw [find?_cons_neg (fun k => holdsData st k rType) (RedisStore.nameToKey name) [] hh]
      rfl
    · rw [find?_cons_pos (fun k => holdsData st k rType) (RedisStore.nameToKey name) [] hh]
      show some (mapWrap st (RedisStore.nameToKey name) rType) =
        some (resultAt st name (RedisStore.nameToKey name) rType)
      rw [resultAt_self]
  | true =>
    cases hh : holdsData st (RedisStore.nameToKey name) rType
    · rw [find?_cons_neg (fun k => holdsData st k rType) (RedisStore.nameToKey name) _ hh]
      rw [find?_orElse, getLoop_eq_chain st rType]
      cases hc : List.find? (fun k => holdsData st k rType)
          (wildcardChain ((RedisStore.nameToKey name).length + 1) (RedisStore.nameToKey name)) with
      | some k' =>
        have hk' := List.mem_of_find?_eq_some hc
        obtain ⟨s, hs⟩ := wildcardChain_mem _ _ k' hk'
        have hne : k' ≠ "*" := hs ▸ append_star_ne_star s
        show some (mapWrap st k' rType) = some (resultAt st name k' rType)
        rw [resultAt_eq_mapWrap_of_ne st name k' rType hne]
      | none =>
        cases hr : holdsData st "*" rType
        · rw [rootLookup_none st rType hr,
            find?_cons_neg (fun k => holdsData st k rType) "*" [] hr]
          rfl
        · have hks : RedisStore.nameToKey name ≠ "*" := by
            intro he
            rw [he] at hh
            rw [hh] at hr
            exact Bool.false_ne_true hr
          rw [find?_cons_pos (fun k => holdsData st k rType) "*" [] hr]
          cases rType with
          | none =>
            have hie : (st "*").isEmpty = false := by simpa [holdsData] using hr
            show (if (st "*").isEmpty then none else some (GetResult.map (st "*"))) =
              some (resultAt st name "*" none)
            rw [hie]
            rfl
          | some t =>
            obtain ⟨vs, hvs⟩ : ∃ vs, hget (st "*") t = some vs := by
              simpa [holdsData, Option.isSome_iff_exists] using hr
            simp [rootLookup, resultAt, hvs, hks]
    · rw [find?_cons_pos (fun k => holdsData st k rType) (RedisStore.nameToKey name) _ hh]
      show some (mapWrap st (RedisStore.nameToKey name) rType) =
        some (resultAt st name (RedisStore.nameToKey name) rType)
      rw [resultAt_self]

theorem resolveLoop_eq_chain (st : RStore) : ∀ (f : Nat) (k : String),
    resolveLoop st f k =
      ((wildcardChain f k).find? (fun wk => !(st wk).isEmpty)).map keyToName := by
  intro f
  induction f with
  | zero => intro k; rfl
  | succ f ih =>
    intro k
    simp only [resolveLoop, wildcardChain]
    by_cases hk : k = ""
    · rw [if_pos hk, if_pos hk]
      rfl
    · rw [if_neg hk, if_neg hk]
      cases he : (st (stripKey k ++ ":*")).isEmpty
      · rw [find?_cons_pos (fun wk => !(st wk).isEmpty) (stripKey k ++ ":*") _ (by simp [he])]
        rfl
      · rw [find?_cons_neg (fun wk => !(st wk).isEmpty) (stripKey k ++ ":*") _ (by simp [he])]
        exact ih (stripKey k)

/-- C3 (amended): `resolve` walks the exact key and then the
hierarchical wildcard keys, returning the exact storage key or the
wildcard's canonical domain name for the first key that holds data, and
`none` when none of them does; it never probes the root wildcard `*`. -/
theorem resolve_first_matching_key (st : RStore) (name : String) :
    RedisStore.resolve st name =
      ((resolveChain name).find? (fun k => !(st k).isEmpty)).map
        (fun k => if k = RedisStore.nameToKey name then k else keyToName k) := by
  simp only [RedisStore.resolve, resolveChain]
  cases he : (st (RedisStore.nameToKey name)).isEmpty
  · rw [find?_cons_pos (fun k => !(st k).isEmpty) (RedisStore.nameToKey name) _ (by simp [he])]
    show some (RedisStore.nameToKey name) =
      some (if RedisStore.nameToKey name = RedisStore.nameToKey name then
        RedisStore.nameToKey name else keyToName (RedisStore.nameToKey name))
    rw [if_pos rfl]
  · rw [find?_cons_neg (fun k => !(st k).isEmpty) (RedisStore.nameToKey name) _ (by simp [he])]
    rw [resolveLoop_eq_chain]
    cases hc : List.find? (fun k => !(st k).isEmpty)
        (wildcardChain ((RedisStore.nameToKey name).length + 1) (RedisStore.nameToKey name)) with
    | none => rfl
    | some k' =>
      have hp := List.find?_some hc
      have hne : k' ≠ RedisStore.nameToKey name := by
        intro hkk
        rw [hkk] at hp
        simp [he] at hp
      show some (keyToName k') =
        some (if k' = RedisStore.nameToKey name then k' else keyToName k')
      rw [if_neg hne]

/-- C3 (counterexample): with records only under the root wildcard key
`*`, `get` succeeds but `resolve` returns `null`, so `resolve` does not
perform the same walk as a wildcards-enabled `get`. -/
theorem resolve_misses_root_wildcard :
    RedisStore.resolve starStore "example.com" = none ∧
      RedisStore.get starStore "example.com" none true =
        some (GetResult.map [("A", [vA])]) := by
  constructor
  · decide
  · decide

/-- C2 (code bug exhibit): a typed `get` that falls through to the root
wildcard key `*` returns the bare parsed list, not the type-keyed map
`{A: values}` that the same query returns at every other key and that
the method's declared return type `Partial<ZoneDataMap>` promises; the
typeless root-wildcard query still returns the map form. -/
theorem get_root_wildcard_unwrapped :
    RedisStore.get starStore "example.com" (some "A") true =
        some (GetResult.bare [vA]) ∧
      RedisStore.get starStore "example.com" none true =
        some (GetResult.map [("A", [vA])]) := by
  constructor
  · decide
  · decide

/-- C4 (code bug exhibit): the constructor guard
`if (options.shouldCache) this.shouldCache = options.shouldCache` never
assigns a falsy value, so `shouldCache` is `true` for every option,
including an explicit `false`; a store constructed with
`shouldCache: false` therefore still emits one `cacheRequest` event
carrying the queried name, the queried type and the flat value list. -/
theorem shouldCache_false_still_emits :
    (∀ b : Option Bool, initShouldCache b = true) ∧
      RedisStore.handler (initShouldCache (some false)) exactStore "example.com" "A" false =
        some ([Answer.mk "example.com" "A" 300 vA],
          [CacheEvent.mk "example.com" "A" [vA]]) := by
  constructor
  · intro b
    cases b with
    | none => rfl
    | some x => cases x <;> rfl
  · decide

theorem storeInv_set (st : RStore) (n t : String) (d : Val ⊕ List Val)
    (hinv : storeInv st) (hd : wrapData d ≠ []) : storeInv (RedisStore.set st n t d) := by
  intro k p hp
  simp only [RedisStore.set] at hp
  by_cases hk : k = RedisStore.nameToKey n
  · subst hk
    rw [update_self] at hp
    rcases mem_hset _ _ _ hp with h1 | h1
    · rw [h1]
      exact hd
    · exact hinv _ p h1
  · rw [update_ne _ _ _ hk] at hp
    exact hinv k p hp

theorem storeInv_append (st : RStore) (n t : String) (v : Val)
    (hinv : storeInv st) : storeInv (RedisStore.append st n t v) := by
  intro k p hp
  simp only [RedisStore.append] at hp
  cases hg : hget (st (RedisStore.nameToKey n)) t with
  | some L =>
    simp only [hg] at hp
    by_cases hk : k = RedisStore.nameToKey n
    · subst hk
      rw [update_self] at hp
      rcases mem_hset _ _ _ hp with h1 | h1
      · rw [h1]
        simp
      · exact hinv _ p h1
    · rw [update_ne _ _ _ hk] at hp
      exact hinv k p hp
  | none =>
    simp only [hg] at hp
    by_cases hk : k = RedisStore.nameToKey n
    · subst hk
      rw [update_self] at hp
      rcases mem_hset _ _ _ hp with h1 | h1
      · rw [h1]
        simp
      · exact hinv _ p h1
    · rw [update_ne _ _ _ hk] at hp
      exact hinv k p hp

theorem storeInv_delete (st : RStore) (n : String) (rT : Option String) (rD : Option Val)
    (hinv : storeInv st) : storeInv (RedisStore.delete st n rT rD) := by
  intro k p hp
  by_cases hk : k = RedisStore.nameToKey n
  case neg =>
    rcases rT with _ | t
    · simp only [RedisStore.delete] at hp
      rw [update_ne _ _ _ hk] at hp
      exact hinv k p hp
    · rcases rD with _ | v
      · simp only [RedisStore.delete] at hp
        rw [update_ne _ _ _ hk] at hp
        exact hinv k p hp
      · simp only [RedisStore.delete] at hp
        cases htv : Val.truthy v
        · simp [htv] at hp
          rw [update_ne _ _ _ hk] at hp
          exact hinv k p hp
        · simp only [htv, if_true] at hp
          cases hg : hget (st (RedisStore.nameToKey n)) t with
          | none =>
            simp only [hg] at hp
            rw [update_ne _ _ _ hk] at hp
            exact hinv k p hp
          | some L =>
            simp only [hg] at hp
            cases hf : (L.filter (fun d => !(Val.beq d v))).isEmpty
            · simp [hf] at hp
              rw [update_ne _ _ _ hk] at hp
              exact hinv k p hp
            · simp [hf] at hp
              rw [update_ne _ _ _ hk] at hp
              exact hinv k p hp
  case pos =>
    subst hk
    rcases rT with _ | t
    · simp only [RedisStore.delete] at hp
      rw [update_self] at hp
      exact absurd hp (List.not_mem_nil p)
    · rcases rD with _ | v
      · simp only [RedisStore.delete] at hp
        rw [update_self] at hp
        exact hinv _ p (mem_hdel _ _ hp)
      · simp only [RedisStore.delete] at hp
        cases htv : Val.truthy v
        · simp [htv] at hp
          rw [update_self] at hp
          exact hinv _ p (mem_hdel _ _ hp)
        · simp only [htv, if_true] at hp
          cases hg : hget (st (RedisStore.nameToKey n)) t with
          | none =>
            simp only [hg] at hp
            rw [update_self] at hp
            exact hinv _ p (mem_hdel _ _ hp)
          | some L =>
            simp only [hg] at hp
            cases hf : (L.filter (fun d => !(Val.beq d v))).isEmpty
            · simp [hf] at hp
              rw [update_self] at hp
              rcases mem_hset _ _ _ hp with h1 | h1
              · rw [h1]
                intro he
                have hfe : List.filter (fun d => !(Val.beq d v)) L = [] := he
                rw [hfe] at hf
                simp at hf
              · exact hinv _ p h1
            · simp [hf] at hp
              rw [update_self] at hp
              exact hinv _ p (mem_hdel _ _ hp)

/-- C5 (amended): starting from the empty store, after any finite
sequence of `set`, `append` and `delete` calls in which every explicit
value list handed to `set` is non-empty, every record-type field present
under any storage key holds a non-empty list.  (Keys with empty
collections cannot exist: the backing store drops a hash with no
fields.)  The restriction on `set` is forced: `set` with an empty array
stores the empty list verbatim. -/
theorem runOps_storeInv (ops : List Op) (hok : ∀ op ∈ ops, okOp op = true) :
    storeInv (runOps emptyStore ops) := by
  have haux : ∀ (l : List Op) (st : RStore), storeInv st →
      (∀ op ∈ l, okOp op = true) → storeInv (runOps st l) := by
    intro l
    induction l with
    | nil => intro st hinv _; exact hinv
    | cons op rest ih =>
      intro st hinv hok2
      have hop : storeInv (runOp st op) := by
        cases op with
        | oset n t d =>
          have hd : wrapData d ≠ [] := by
            cases d with
            | inl v => simp [wrapData]
            | inr vs =>
              have := hok2 _ (List.mem_cons_self _ _)
              simp only [okOp] at this
              simp only [wrapData]
              intro he
              rw [he] at this
              simp at this
          exact storeInv_set st n t d hinv hd
        | oappend n t v => exact storeInv_append st n t v hinv
        | odelete n t v => exact storeInv_delete st n t v hinv
      exact ih (runOp st op) hop (fun o ho => hok2 o (List.mem_cons_of_mem _ ho))
  exact haux ops emptyStore (fun k p hp => absurd hp (List.not_mem_nil p)) hok

theorem runOps_storeInv_witness :
    (∀ op ∈ [Op.oset "example.com" "A" (Sum.inr [vA, vB]),
        Op.oappend "example.com" "A" vA,
        Op.odelete "example.com" (some "A") (some vA)], okOp op = true) ∧
      storeInv (runOps emptyStore
        [Op.oset "example.com" "A" (Sum.inr [vA, vB]),
          Op.oappend "example.com" "A" vA,
          Op.odelete "example.com" (some "A") (some vA)]) :=
  ⟨by decide, runOps_storeInv _ (by decide)⟩

/-- C5 (counterexample): `set` with an empty value list stores an empty
list under the field, so the invariant as claimed fails after the
one-call sequence `set("a", "A", [])`. -/
theorem set_empty_list_breaks_invariant :
    ¬ storeInv (runOps emptyStore [Op.oset "a" "A" (Sum.inr [])]) :=
  fun h => h "a" ("A", []) (by decide) rfl

theorem update_id (st : RStore) (k : String) : update st k (st k) = st := by
  funext k'
  by_cases h : k' = k
  · rw [h, update_self]
  · rw [update_ne _ _ _ h]

/-- C6 (amended): `delete` with a type and a truthy value filters the
stored list by deep equality, removing every equal entry, and deletes
the field instead of writing an empty list; with a falsy value (the
empty string, 0) the guard `if (rType && rData)` fails and the whole
field is removed instead of being filtered; `delete` with a type only
removes the whole field even when several values are present; `delete`
with no type removes the whole key; deleting an absent type is a silent
no-op; and deleting a truthy value absent from a non-empty stored list
is a silent no-op.  (Both provisos are forced: a falsy value always
removes the field, and on a field holding the empty list, deleting any
truthy value removes the field, changing the store.) -/
theorem delete_granularity (st : RStore) (n t : String) (v : Val) :
    (∀ L, Val.truthy v = true → hget (st (RedisStore.nameToKey n)) t = some L →
      hget ((RedisStore.delete st n (some t) (some v)) (RedisStore.nameToKey n)) t =
        (if (L.filter (fun d => !(Val.beq d v))).isEmpty then none
         else some (L.filter (fun d => !(Val.beq d v)))))
    ∧ (Val.truthy v = false →
        hget ((RedisStore.delete st n (some t) (some v)) (RedisStore.nameToKey n)) t = none)
    ∧ hget ((RedisStore.delete st n (some t) none) (RedisStore.nameToKey n)) t = none
    ∧ (RedisStore.delete st n none none) (RedisStore.nameToKey n) = []
    ∧ (hget (st (RedisStore.nameToKey n)) t = none →
        RedisStore.delete st n (some t) (some v) = st ∧
        RedisStore.delete st n (some t) none = st)
    ∧ (∀ L, Val.truthy v = true → hget (st (RedisStore.nameToKey n)) t = some L →
        L ≠ [] → (∀ d ∈ L, d ≠ v) → RedisStore.delete st n (some t) (some v) = st) := by
  refine ⟨?_, ?_, ?_, ?_, ?_, ?_⟩
  · intro L htv hL
    simp only [RedisStore.delete, hL, htv, if_true]
    cases hf : (L.filter (fun d => !(Val.beq d v))).isEmpty
    · simp only [hf, Bool.false_eq_true, if_false]
      rw [update_self, hget_hset_self]
    · simp only [hf, if_true]
      rw [update_self, hget_hdel_self]
  · intro htv
    simp only [RedisStore.delete, htv, Bool.false_eq_true, if_false]
    rw [update_self, hget_hdel_self]
  · simp only [RedisStore.delete]
    rw [update_self, hget_hdel_self]
  · simp only [RedisStore.delete]
    rw [update_self]
  · intro hL
    constructor
    · simp only [RedisStore.delete, hL]
      cases htv : Val.truthy v
      · simp only [htv, Bool.false_eq_true, if_false]
        rw [hdel_of_hget_none _ _ hL, update_id]
      · simp only [htv, if_true]
        rw [hdel_of_hget_none _ _ hL, update_id]
    · simp only [RedisStore.delete]
      rw [hdel_of_hget_none _ _ hL, update_id]
  · intro L htv hL hLne hnv
    have hfil : L.filter (fun d => !(Val.beq d v)) = L := by
      apply List.filter_eq_self.mpr
      intro d hd
      cases hb : Val.beq d v
      · rfl
      · exact absurd ((Val.beq_iff d v).mp hb) (hnv d hd)
    have hie : (L.filter (fun d => !(Val.beq d v))).isEmpty = false := by
      rw [hfil]
      cases L with
      | nil => exact absurd rfl hLne
      | cons a as => rfl
    simp only [RedisStore.delete, hL, htv, if_true, hie, Bool.false_eq_true, if_false, hfil]
    rw [hset_of_hget_some _ _ _ hL, update_id]
    have hLe : L.isEmpty = false := by
      cases L with
      | nil => exact absurd rfl hLne
      | cons a as => rfl
    simp [hLe]

/-- C6 (counterexample): two instances refute the original claim.  On a
field holding the empty list, deleting a value that is not present does
not leave the store unchanged — the filtered list is empty, so the
field is removed.  And deleting the falsy value `''` from a two-value
list does not filter at all: the truthiness guard fails and the whole
field is removed, although neither stored entry equals `''`. -/
theorem delete_absent_value_changes_store :
    ((RedisStore.delete emptyFieldStore "a" (some "A") (some vA)) "a" ≠
      emptyFieldStore "a") ∧
      hget ((RedisStore.delete (fun k => if k = "com:example" then [("A", [vA, vB])] else [])
          "example.com" (some "A") (some (Val.vstr "")))
        (RedisStore.nameToKey "example.com")) "A" = none := by
  constructor
  · decide
  · decide

theorem delete_granularity_witness :
    Val.truthy vA = true ∧
      hget ((fun k => if k = "com:example" then [("A", [vA, vB])] else [])
        (RedisStore.nameToKey "example.com")) "A" = some [vA, vB] ∧
      hget ((RedisStore.delete (fun k => if k = "com:example" then [("A", [vA, vB])] else [])
          "example.com" (some "A") (some vA)) (RedisStore.nameToKey "example.com")) "A" =
        some [vB] :=
  ⟨by decide, by decide,
    ((delete_granularity (fun k => if k = "com:example" then [("A", [vA, vB])] else [])
      "example.com" "A" vA).1 [vA, vB] (by decide) (by decide)).trans (by decide)⟩

/-- C7: after `set(n, t, vs)` — a scalar being wrapped into a singleton
list — a typed `get(n, t)` hits the exact key and returns the type-keyed
map carrying exactly `vs` in order, and repeating the identical `set`
call leaves the store unchanged. -/
theorem set_get_roundtrip (st : RStore) (n t : String) (d : Val ⊕ List Val) :
    RedisStore.get (RedisStore.set st n t d) n (some t) true =
        some (GetResult.map [(t, wrapData d)])
    ∧ RedisStore.set (RedisStore.set st n t d) n t d = RedisStore.set st n t d := by
  constructor
  · simp only [RedisStore.get, RedisStore.set, lookupKey]
    rw [update_self, hget_hset_self]
  · funext k
    simp only [RedisStore.set]
    by_cases hk : k = RedisStore.nameToKey n
    · subst hk
      rw [update_self, update_self, hset_hset_same]
    · rw [update_ne _ _ _ hk, update_ne _ _ _ hk]

/-- C8: `append` on an absent field creates a singleton list; on a field
holding `L` it writes `L` with the value appended at the end, preserving
order; a second `append` of the same value yields both copies in
insertion order (duplicates allowed). -/
theorem append_accumulates (st : RStore) (n t : String) (v : Val) :
    hget ((RedisStore.append st n t v) (RedisStore.nameToKey n)) t =
        some ((hget (st (RedisStore.nameToKey n)) t).getD [] ++ [v])
    ∧ hget ((RedisStore.append (RedisStore.append st n t v) n t v)
          (RedisStore.nameToKey n)) t =
        some ((hget (st (RedisStore.nameToKey n)) t).getD [] ++ [v, v]) := by
  have h1 : ∀ (s : RStore),
      hget ((RedisStore.append s n t v) (RedisStore.nameToKey n)) t =
        some ((hget (s (RedisStore.nameToKey n)) t).getD [] ++ [v]) := by
    intro s
    simp only [RedisStore.append]
    cases hg : hget (s (RedisStore.nameToKey n)) t with
    | some L =>
      simp only [hg]
      rw [update_self, hget_hset_self]
      rfl
    | none =>
      simp only [hg]
      rw [update_self, hget_hset_self]
      rfl
  refine ⟨h1 st, ?_⟩
  rw [h1 (RedisStore.append st n t v), h1 st]
  simp

/-- C9: decoding a storage key by splitting on `:`, reversing and
joining with `.` — the transform `resolve` applies inline — inverts the
encoding for every name containing no `:` character. -/
theorem keyToName_nameToKey (n : String) (h : (':' : Char) ∉ n.data) :
    keyToName (RedisStore.nameToKey n) = n := by
  apply String.ext
  rw [keyToName_data, nameToKey_data]
  have hfree : ∀ p ∈ (splitCh '.' n.data).reverse, (':' : Char) ∉ p := by
    intro p hp hc
    exact h (mem_of_mem_splitCh '.' n.data p (List.mem_reverse.mp hp) ':' hc)
  have hne : (splitCh '.' n.data).reverse ≠ [] := by
    intro hx
    exact splitCh_ne_nil '.' n.data (List.reverse_eq_nil_iff.mp hx)
  rw [splitCh_joinCh ':' _ hne hfree, List.reverse_reverse, joinCh_splitCh]

theorem keyToName_nameToKey_witness :
    ((':' : Char) ∉ ("example.com" : String).data) ∧
      keyToName (RedisStore.nameToKey "example.com") = "example.com" :=
  ⟨by decide, keyToName_nameToKey "example.com" (by decide)⟩

theorem delete_frame_key (st : RStore) (n : String) (rT : Option String) (rD : Option Val)
    {k : String} (hk : k ≠ RedisStore.nameToKey n) :
    (RedisStore.delete st n rT rD) k = st k := by
  rcases rT with _ | t'
  · simp only [RedisStore.delete]
    rw [update_ne _ _ _ hk]
  · rcases rD with _ | v'
    · simp only [RedisStore.delete]
      rw [update_ne _ _ _ hk]
    · simp only [RedisStore.delete]
      cases htv : Val.truthy v'
      · simp only [htv, Bool.false_eq_true, if_false]
        rw [update_ne _ _ _ hk]
      · simp only [htv, if_true]
        cases hg : hget (st (RedisStore.nameToKey n)) t' with
        | none =>
          simp only [hg]
          rw [update_ne _ _ _ hk]
        | some L =>
          simp only [hg]
          cases hf : (L.filter (fun d => !(Val.beq d v'))).isEmpty
          · simp only [hf, Bool.false_eq_true, if_false]
            rw [update_ne _ _ _ hk]
          · simp only [hf, if_true]
            rw [update_ne _ _ _ hk]

theorem delete_frame_field (st : RStore) (n t : String) (rD : Option Val)
    {u : String} (hu : u ≠ t) :
    hget ((RedisStore.delete st n (some t) rD) (RedisStore.nameToKey n)) u =
      hget (st (RedisStore.nameToKey n)) u := by
  rcases rD with _ | v'
  · simp only [RedisStore.delete]
    rw [update_self, hget_hdel_ne _ _ hu]
  · simp only [RedisStore.delete]
    cases htv : Val.truthy v'
    · simp only [htv, Bool.false_eq_true, if_false]
      rw [update_self, hget_hdel_ne _ _ hu]
    · simp only [htv, if_true]
      cases hg : hget (st (RedisStore.nameToKey n)) t with
      | none =>
        simp only [hg]
        rw [update_self, hget_hdel_ne _ _ hu]
      | some L =>
        simp only [hg]
        cases hf : (L.filter (fun d => !(Val.beq d v'))).isEmpty
        · simp only [hf, Bool.false_eq_true, if_false]
          rw [update_self, hget_hset_ne _ _ _ hu]
        · simp only [hf, if_true]
          rw [update_self, hget_hdel_ne _ _ hu]

/-- C10: every writer naming domain `n` mutates at most the single
storage key `nameToKey(n)`; `set` and `append`, and `delete` given a
record type, mutate at most that one record-type field of that key,
leaving every other field and every other key unchanged.  (`get` and
`resolve` are embedded as pure functions of the store — they invoke only
the read commands `hget`/`hgetall` — so they modify nothing by
construction.) -/
theorem write_frame (st : RStore) (n t : String) (d : Val ⊕ List Val) (v : Val)
    (rT : Option String) (rD : Option Val) :
    (∀ k, k ≠ RedisStore.nameToKey n →
      (RedisStore.set st n t d) k = st k ∧
      (RedisStore.append st n t v) k = st k ∧
      (RedisStore.delete st n rT rD) k = st k)
    ∧ (∀ u, u ≠ t →
        hget ((RedisStore.set st n t d) (RedisStore.nameToKey n)) u =
          hget (st (RedisStore.nameToKey n)) u ∧
        hget ((RedisStore.append st n t v) (RedisStore.nameToKey n)) u =
          hget (st (RedisStore.nameToKey n)) u)
    ∧ (∀ u, u ≠ t →
        hget ((RedisStore.delete st n (some t) rD) (RedisStore.nameToKey n)) u =
          hget (st (RedisStore.nameToKey n)) u) := by
  refine ⟨?_, ?_, ?_⟩
  · intro k hk
    refine ⟨?_, ?_, delete_frame_key st n rT rD hk⟩
    · simp only [RedisStore.set]
      rw [update_ne _ _ _ hk]
    · simp only [RedisStore.append]
      cases hg : hget (st (RedisStore.nameToKey n)) t with
      | none =>
        simp only [hg]
        rw [update_ne _ _ _ hk]
      | some L =>
        simp only [hg]
        rw [update_ne _ _ _ hk]
  · intro u hu
    constructor
    · simp only [RedisStore.set]
      rw [update_self, hget_hset_ne _ _ _ hu]
    · simp only [RedisStore.append]
      cases hg : hget (st (RedisStore.nameToKey n)) t with
      | none =>
        simp only [hg]
        rw [update_self, hget_hset_ne _ _ _ hu]
      | some L =>
        simp only [hg]
        rw [update_self, hget_hset_ne _ _ _ hu]
  · intro u hu
    exact delete_frame_field st n t rD hu

theorem write_frame_witness :
    ("org" ≠ RedisStore.nameToKey "example.com") ∧
      (RedisStore.set exactStore "example.com" "AAAA" (Sum.inl vA)) "org" =
        exactStore "org" ∧
      ("A" ≠ "AAAA") ∧
      hget ((RedisStore.set exactStore "example.com" "AAAA" (Sum.inl vA))
          (RedisStore.nameToKey "example.com")) "A" =
        hget (exactStore (RedisStore.nameToKey "example.com")) "A" := by
  refine ⟨by decide, ?_, by decide, ?_⟩
  · exact ((write_frame exactStore "example.com" "AAAA" (Sum.inl vA) vA none none).1
      "org" (by decide)).1
  · exact (((write_frame exactStore "example.com" "AAAA" (Sum.inl vA) vA none none).2).1
      "A" (by decide)).1
